import Mathlib

/-!
Verification of the GitPrism ingestion-and-rendering pipeline.

This file gives a shallow embedding of the core engine of the repository
(`src/engine/filter.ts`, `src/engine/decompressor.ts`, `src/engine/formatter.ts`,
`src/engine/parser.ts`) and proves properties of the embedded definitions.

Modelling conventions:
* JavaScript strings are modelled by Lean `String` (a list of characters);
  character positions are code points.
* Byte buffers (`Uint8Array`) are modelled by `List Nat` (byte values).
* `TextDecoder.decode` is platform code; functions that use it take an explicit
  `decode : List Nat → String` parameter, and theorems quantify over it.
* A zip archive (the output of `unzipSync`) is modelled by its ordered list of
  entries (path, raw bytes), matching JavaScript object enumeration order.
* JavaScript `RegExp` tests produced by `gitignorePatternToRegex` are modelled
  by an executable glob matcher (`tokMatch` / `dirMatch` / `segStarts`) that
  mirrors the four regular-expression shapes the source constructs.
-/

set_option maxRecDepth 8192

namespace GitPrism

/-! ## Generic string helpers (JavaScript string primitives) -/

/-- JS `s.split(c)` on a single-character separator, over char lists. -/
def splitOnCharL (c : Char) : List Char → List (List Char)
  | [] => [[]]
  | x :: rest =>
    match splitOnCharL c rest with
    | [] => if x = c then [[], []] else [[x]]
    | h :: t => if x = c then [] :: h :: t else (x :: h) :: t

/-- JS `s.split(c)` on strings. -/
def splitOnCharS (c : Char) (s : String) : List String :=
  (splitOnCharL c s.toList).map String.mk

/-- JS `s.startsWith(p)`. -/
def strHasPfx (s p : String) : Bool :=
  p.toList.isPrefixOf s.toList

/-- JS `s.endsWith(p)`. -/
def strHasSfx (s p : String) : Bool :=
  p.toList.isSuffixOf s.toList

/-- JS `s.slice(n)` (drop the first `n` characters). -/
def strDropN (s : String) (n : Nat) : String :=
  String.mk (s.toList.drop n)

/-- JS `s.slice(0, n)` (take the first `n` characters). -/
def strTakeN (s : String) (n : Nat) : String :=
  String.mk (s.toList.take n)

/-- JS `array.join("\n")`. -/
def joinNl : List String → String
  | [] => ""
  | [s] => s
  | s :: rest => s ++ "\n" ++ joinNl rest

/-- JS whitespace for `trim` (the characters relevant to ignore files and
request parameters). -/
def isJsWs (c : Char) : Bool :=
  c == ' ' || c == '\t' || c == '\n' || c == '\r' ||
    c == '\x0b' || c == '\x0c'

/-- JS `s.trim()`. -/
def strTrim (s : String) : String :=
  String.mk (((s.toList.dropWhile isJsWs).reverse.dropWhile isJsWs).reverse)

/-! ## `src/engine/filter.ts` — hardcoded ignore lists -/

def IGNORED_DIRS : List String :=
  ["node_modules", "vendor", ".git", "__pycache__", ".venv", "venv", "dist",
   "build", ".next", ".nuxt", ".svelte-kit", ".output", ".cache",
   ".parcel-cache", "coverage", ".tox", ".mypy_cache"]

def IGNORED_FILES : List String :=
  ["package-lock.json", "yarn.lock", "pnpm-lock.yaml", "bun.lockb",
   "Cargo.lock", "composer.lock", "Gemfile.lock", "go.sum", "poetry.lock"]

def IGNORED_EXTENSIONS : List String :=
  [".min.js", ".min.css", ".map", ".wasm", ".pb.go", ".pyc", ".pyo"]

def BINARY_EXTENSIONS : List String :=
  [".png", ".jpg", ".jpeg", ".gif", ".ico", ".webp", ".bmp", ".tiff", ".svg",
   ".woff", ".woff2", ".ttf", ".eot", ".otf", ".pdf", ".zip", ".tar", ".gz",
   ".bz2", ".7z", ".rar", ".exe", ".dll", ".so", ".dylib", ".bin", ".o", ".a",
   ".mp3", ".mp4", ".avi", ".mov", ".mkv", ".flac", ".wav", ".ogg", ".sqlite",
   ".db", ".DS_Store"]

/-- `shouldIgnorePath` from `src/engine/filter.ts`: static path exclusion.
The source returns `true` from the first matching check; this is the
disjunction of all checks. -/
def shouldIgnorePath (filePath : String) : Bool :=
  let parts := splitOnCharS '/' filePath
  let fileName := parts.getLastD ""
  -- any non-final path segment is an ignored directory
  (parts.dropLast.any (fun p => IGNORED_DIRS.contains p)) ||
  -- a single-segment path equal to an ignored directory name
  (parts.length == 1 && IGNORED_DIRS.contains (parts.headD "")) ||
  -- exact filename match
  IGNORED_FILES.contains fileName ||
  -- generated-artifact and binary-media suffixes
  IGNORED_EXTENSIONS.any (fun ext => strHasSfx fileName ext) ||
  BINARY_EXTENSIONS.any (fun ext => strHasSfx fileName ext)

/-- `isBinaryContent` from `src/engine/filter.ts`: true iff a zero byte occurs
among the first 8192 bytes. -/
def isBinaryContent (buffer : List Nat) : Bool :=
  (buffer.take 8192).any (fun b => b == 0)

/-! ## `src/engine/filter.ts` — gitignore pattern compilation

`gitignorePatternToRegex` escapes every regex metacharacter except `*` and `?`,
turns `**` into `.*`, `*` into `[^/]*`, `?` into `[^/]`, and wraps the result
in one of four shapes depending on a trailing `/` (directory-only) and a
leading `/` (rooted):
  rooted (dir or not):      `^P(/.*)?$`
  non-rooted, directory:    `(^|/)P(/.*)?$`
  non-rooted, plain:        `(^|/)P$`
The embedding below models the escaped pattern as a token list and the four
regex shapes as executable matchers.  JavaScript `.` does not match line
terminators, which `tokMatch`/`noLineTerm` reproduce. -/

/-- One token of a compiled gitignore pattern. -/
inductive GTok where
  | lit (c : Char)
  | star
  | qmark
  | gstar
  deriving DecidableEq, Repr

/-- Tokenize a pattern body: `**` (leftmost, non-overlapping) becomes `gstar`,
then `*` becomes `star`, `?` becomes `qmark`; all other characters are
literals (they are regex-escaped by the source). -/
def tokenize : List Char → List GTok
  | [] => []
  | '*' :: '*' :: rest => .gstar :: tokenize rest
  | '*' :: rest => .star :: tokenize rest
  | '?' :: rest => .qmark :: tokenize rest
  | c :: rest => .lit c :: tokenize rest

/-- JavaScript regex `.` (no `s` flag) excludes line terminators. -/
def isLineTerm (c : Char) : Bool :=
  c == '\n' || c == '\r' || c.val == 0x2028 || c.val == 0x2029

def noLineTerm (cs : List Char) : Bool :=
  cs.all (fun c => !isLineTerm c)

/-- Fuelled matcher for a token sequence against a character sequence:
`[^/]*` for `star`, `[^/]` for `qmark`, `.*` for `gstar`.  Every recursive
call strictly decreases `ts.length + cs.length`, so any fuel above that bound
gives the fixpoint semantics; the fuel makes the recursion structural so that
the kernel can evaluate matches. -/
def tokMatchF : Nat → List GTok → List Char → Bool
  | 0, _, _ => false
  | _ + 1, [], [] => true
  | _ + 1, [], _ :: _ => false
  | _ + 1, .lit _ :: _, [] => false
  | fuel + 1, .lit c :: ts, x :: xs => c == x && tokMatchF fuel ts xs
  | _ + 1, .qmark :: _, [] => false
  | fuel + 1, .qmark :: ts, x :: xs => x != '/' && tokMatchF fuel ts xs
  | fuel + 1, .star :: ts, [] => tokMatchF fuel ts []
  | fuel + 1, .star :: ts, x :: xs =>
    tokMatchF fuel ts (x :: xs) || (x != '/' && tokMatchF fuel (.star :: ts) xs)
  | fuel + 1, .gstar :: ts, [] => tokMatchF fuel ts []
  | fuel + 1, .gstar :: ts, x :: xs =>
    tokMatchF fuel ts (x :: xs) ||
      (!isLineTerm x && tokMatchF fuel (.gstar :: ts) xs)

/-- Full match of a token sequence against a character sequence, with enough
fuel for the recursion to run to completion. -/
def tokMatch (ts : List GTok) (cs : List Char) : Bool :=
  tokMatchF (ts.length + cs.length + 1) ts cs

/-- All decompositions `s = a ++ '/' :: b`, in order of the split position. -/
def slashSplits : List Char → List (List Char × List Char)
  | [] => []
  | c :: t =>
    (if c = '/' then [(([] : List Char), t)] else []) ++
      (slashSplits t).map (fun p => (c :: p.1, p.2))

/-- Start positions allowed by the `(^|/)` alternative: the whole string, and
every suffix that follows a `/`. -/
def segStarts (s : List Char) : List (List Char) :=
  s :: (slashSplits s).map Prod.snd

/-- Matcher for `^P(/.*)?$` applied at a given start: either `P` matches the
whole remainder, or it matches up to some `/` and `.*` absorbs a
line-terminator-free tail. -/
def dirMatch (ts : List GTok) (s : List Char) : Bool :=
  tokMatch ts s ||
    (slashSplits s).any (fun p => tokMatch ts p.1 && noLineTerm p.2)

/-- A compiled gitignore pattern (result of `gitignorePatternToRegex`). -/
structure GPattern where
  rooted : Bool
  isDir : Bool
  toks : List GTok
  deriving Repr

/-- `gitignorePatternToRegex` from `src/engine/filter.ts`: strip a trailing
`/` (directory marker), strip a leading `/` (rooted marker), tokenize the
rest. -/
def gitignorePatternToRegex (pat : String) : GPattern :=
  let isDir := strHasSfx pat "/"
  let p1 := if isDir then strTakeN pat (pat.toList.length - 1) else pat
  let rooted := strHasPfx p1 "/"
  let p2 := if rooted then strDropN p1 1 else p1
  { rooted := rooted, isDir := isDir, toks := tokenize p2.toList }

/-- `regex.test(path)` for the four shapes the source constructs. -/
def regexTest (gp : GPattern) (path : String) : Bool :=
  let cs := path.toList
  if gp.rooted then
    -- `^P(/.*)?$` (same regex for the directory and plain rooted cases)
    dirMatch gp.toks cs
  else if gp.isDir then
    -- `(^|/)P(/.*)?$`
    (segStarts cs).any (fun s => dirMatch gp.toks s)
  else
    -- `(^|/)P$`
    (segStarts cs).any (fun s => tokMatch gp.toks s)

/-! ## `src/engine/filter.ts` — `parseGitignore` and `filterBySubpath` -/

/-- One parsed ignore rule. -/
structure IgnoreRule where
  negate : Bool
  pat : GPattern

/-- The rule list `parseGitignore` builds: split on newlines, trim, drop blank
and `#` lines, strip a leading `!` (negation), drop empty patterns.  The
`try/catch` in the source never fires because every metacharacter is escaped,
so no rule is dropped for being unparseable. -/
def parseGitignoreRules (content : String) : List IgnoreRule :=
  (splitOnCharS '\n' content).filterMap (fun rawLine =>
    let line := strTrim rawLine
    if line = "" || strHasPfx line "#" then none
    else
      let negate := strHasPfx line "!"
      let pattern := if negate then strDropN line 1 else line
      if pattern = "" then none
      else some { negate := negate, pat := gitignorePatternToRegex pattern })

/-- The predicate `parseGitignore` returns: fold over the rules in file order,
the last matching rule setting the verdict (`!negate`). -/
def parseGitignore (content : String) : String → Bool :=
  fun path =>
    (parseGitignoreRules content).foldl
      (fun ignored r => if regexTest r.pat path then !r.negate else ignored)
      false

/-- `FileEntry` from `src/types.ts`. -/
structure FileEntry where
  path : String
  size : Nat
  lines : Option Nat := none
  content : Option String := none
  deriving Repr, DecidableEq

/-- `filterBySubpath` from `src/engine/filter.ts`. -/
def filterBySubpath (files : List FileEntry) (subpath : String) : List FileEntry :=
  if subpath = "" then files
  else
    let pfx := if strHasSfx subpath "/" then subpath else subpath ++ "/"
    (files.filter (fun f => strHasPfx f.path pfx || f.path == subpath)).map
      (fun f =>
        { f with path := if strHasPfx f.path pfx
                         then strDropN f.path pfx.toList.length
                         else f.path })

/-! ## `src/engine/decompressor.ts` -/

/-- `DetailLevel` from `src/types.ts`: `"summary" | "structure" | "file-list"
| "full"` (`struct` stands for the `"structure"` token). -/
inductive DetailLevel where
  | summary
  | struct
  | fileList
  | full
  deriving DecidableEq, Repr

structure DecompressOptions where
  subpath : Option String := none
  detail : DetailLevel
  maxOutputBytes : Nat
  maxFileCount : Nat

/-- One archive entry as produced by `unzipSync`: zip path and raw bytes. -/
structure RawEntry where
  path : String
  data : List Nat
  deriving Repr

/-- `IngestResult` from `src/types.ts`. -/
structure IngestResult where
  owner : String
  repo : String
  repoName : String
  ref : String
  fileCount : Nat
  totalSize : Nat
  truncated : Bool
  truncationMessage : Option String := none
  files : List FileEntry
  deriving Repr

/-- The truncation note `decompressAndProcess` builds (two concatenated
template strings in the source). -/
def truncMsg (included total : Nat) : String :=
  "<!-- [TRUNCATED] Output limit reached. " ++ toString included ++ " of " ++
    toString total ++ " files included. " ++
    "Use ?path= to target a subdirectory for complete results. -->"

/-- The synthetic top-level directory: scan the entry keys in order and take
everything up to and including the first `/` of the first key that has one;
`""` if no key contains a slash. -/
def topPfx : List RawEntry → String
  | [] => ""
  | e :: rest =>
    match (splitOnCharL '/' e.path.toList).head? with
    | some seg =>
      if seg.length = e.path.toList.length then topPfx rest
      else String.mk (seg ++ ['/'])
    | none => topPfx rest

/-- Mutable loop state of the entry-processing loop. -/
structure LoopState where
  files : List FileEntry
  totalSize : Nat
  truncated : Bool
  totalUnfiltered : Nat

/-- Outcome of one iteration of the processing loop: fall through to the next
entry, or `break` out of the loop. -/
inductive StepRes where
  | cont (st : LoopState)
  | halt (st : LoopState)

def StepRes.state : StepRes → LoopState
  | .cont st => st
  | .halt st => st

/-- One iteration of the entry-processing loop of `decompressAndProcess`. -/
def procStep (pfx : String) (gitignoreMatcher : Option (String → Bool))
    (subpath : String) (detail : DetailLevel) (maxOutputBytes maxFileCount : Nat)
    (decode : List Nat → String) (e : RawEntry) (st : LoopState) : StepRes :=
  -- strip the GitHub top-level prefix
  let fp0 := if strHasPfx e.path pfx then strDropN e.path pfx.toList.length
             else e.path
  -- skip empty paths (the root directory entry itself)
  if fp0 = "" then .cont st
  -- skip directory entries
  else if strHasSfx fp0 "/" then .cont st
  else
    let st := { st with totalUnfiltered := st.totalUnfiltered + 1 }
    -- hardcoded ignore list
    if shouldIgnorePath fp0 then .cont st
    -- .gitignore patterns
    else if (match gitignoreMatcher with
             | some m => m fp0
             | none => false) then .cont st
    else
      -- subpath filter (before the binary check), rewriting the path
      let sub? : Option String :=
        if subpath = "" then some fp0
        else
          let subPfx := if strHasSfx subpath "/" then subpath
                        else subpath ++ "/"
          if strHasPfx fp0 subPfx
          then some (strDropN fp0 subPfx.toList.length)
          else none
      match sub? with
      | none => .cont st
      | some filePath =>
        -- binary content check
        if isBinaryContent e.data then .cont st
        -- limit checks: file count, then byte budget (bodies only)
        else if st.files.length ≥ maxFileCount then
          .halt { st with truncated := true }
        else if detail = .full &&
            decide (st.totalSize + e.data.length > maxOutputBytes) then
          .halt { st with truncated := true }
        else
          let text := decode e.data
          let entry : FileEntry :=
            { path := filePath
              size := e.data.length
              lines := if detail = .full || detail = .fileList
                       then some (splitOnCharS '\n' text).length else none
              content := if detail = .full then some text else none }
          .cont { st with files := st.files ++ [entry]
                          totalSize := st.totalSize + e.data.length }

/-- The per-entry processing loop of `decompressAndProcess`.  A `break` in the
source is modelled by `StepRes.halt`, which discards the remaining entries. -/
def procLoop (pfx : String) (gitignoreMatcher : Option (String → Bool))
    (subpath : String) (detail : DetailLevel) (maxOutputBytes maxFileCount : Nat)
    (decode : List Nat → String) : List RawEntry → LoopState → LoopState
  | [], st => st
  | e :: rest, st =>
    match procStep pfx gitignoreMatcher subpath detail maxOutputBytes
        maxFileCount decode e st with
    | .cont st' => procLoop pfx gitignoreMatcher subpath detail maxOutputBytes
        maxFileCount decode rest st'
    | .halt st' => st'

/-- `decompressAndProcess` from `src/engine/decompressor.ts`, over the decoded
entry list (`unzipSync` itself is the external decompression primitive; a
malformed archive throws there, before this logic runs). -/
def decompressAndProcess (entries : List RawEntry) (options : DecompressOptions)
    (decode : List Nat → String) : IngestResult :=
  let subpath := options.subpath.getD ""
  let pfx := topPfx entries
  -- first pass: collect .gitignore content
  let gitignoreMatcher : Option (String → Bool) :=
    match entries.find? (fun e => e.path == pfx ++ ".gitignore") with
    | some e => some (parseGitignore (decode e.data))
    | none => none
  -- second pass: process all entries
  let st := procLoop pfx gitignoreMatcher subpath options.detail
    options.maxOutputBytes options.maxFileCount decode entries
    { files := [], totalSize := 0, truncated := false, totalUnfiltered := 0 }
  { owner := ""
    repo := ""
    repoName := ""
    ref := ""
    fileCount := st.files.length
    totalSize := st.totalSize
    truncated := st.truncated
    truncationMessage :=
      if st.truncated then some (truncMsg st.files.length st.totalUnfiltered)
      else none
    files := st.files }

/-! ## `src/engine/formatter.ts` -/

/-- The `EXT_TO_LANG` table. -/
def EXT_TO_LANG : List (String × String) :=
  [("ts", "typescript"), ("tsx", "typescript"), ("js", "javascript"),
   ("jsx", "javascript"), ("mjs", "javascript"), ("cjs", "javascript"),
   ("py", "python"), ("rs", "rust"), ("go", "go"), ("java", "java"),
   ("kt", "kotlin"), ("c", "c"), ("h", "c"), ("cpp", "cpp"), ("cc", "cpp"),
   ("cxx", "cpp"), ("cs", "csharp"), ("rb", "ruby"), ("php", "php"),
   ("sh", "bash"), ("bash", "bash"), ("zsh", "bash"), ("md", "markdown"),
   ("mdx", "markdown"), ("json", "json"), ("jsonc", "json"), ("yaml", "yaml"),
   ("yml", "yaml"), ("toml", "toml"), ("html", "html"), ("htm", "html"),
   ("css", "css"), ("scss", "scss"), ("sass", "scss"), ("less", "css"),
   ("xml", "xml"), ("svg", "xml"), ("sql", "sql"), ("graphql", "graphql"),
   ("gql", "graphql"), ("tf", "hcl"), ("hcl", "hcl"),
   ("dockerfile", "dockerfile"), ("swift", "swift"), ("r", "r"),
   ("lua", "lua"), ("vim", "vim"), ("ex", "elixir"), ("exs", "elixir"),
   ("erl", "erlang"), ("hrl", "erlang"), ("hs", "haskell"),
   ("lhs", "haskell"), ("clj", "clojure"), ("cljs", "clojure"),
   ("scala", "scala"), ("dart", "dart"), ("vue", "vue"), ("astro", "astro"),
   ("nix", "nix")]

/-- JS `s.toLowerCase()` (ASCII case fold, which is all the table needs). -/
def strLower (s : String) : String :=
  String.mk (s.toList.map Char.toLower)

/-- Index of the last `.` in a list of characters, or `none`. -/
def lastDotIdx (cs : List Char) : Option Nat :=
  match cs.findIdxs (fun c => c = '.') |>.getLast? with
  | some i => some i
  | none => none

/-- `detectLanguage` from `src/engine/formatter.ts`. -/
def detectLanguage (filePath : String) : String :=
  let parts := splitOnCharS '/' filePath
  let fileName := (parts.getLast? ).getD filePath
  if strLower fileName = "dockerfile" then "dockerfile"
  else if strLower fileName = "makefile" then "makefile"
  else
    match lastDotIdx fileName.toList with
    | none => ""
    | some dotIndex =>
      if dotIndex = fileName.toList.length - 1 then ""
      else
        let ext := strLower (strDropN fileName (dotIndex + 1))
        ((EXT_TO_LANG.find? (fun p => p.1 == ext)).map Prod.snd).getD ""

/-- `formatBytes` from `src/engine/formatter.ts`.  The source formats
`bytes/1024` (a JavaScript double) with `toFixed(1)`; the KB/MB branches are
modelled with round-half-up tenths in `Nat` arithmetic, which agrees with the
source away from floating-point ties.  No theorem in this file depends on
those branches. -/
def formatBytes (bytes : Nat) : String :=
  if bytes < 1024 then toString bytes ++ " B"
  else if bytes < 1024 * 1024 then
    let tenths := (bytes * 10 + 512) / 1024
    toString (tenths / 10) ++ "." ++ toString (tenths % 10) ++ " KB"
  else
    let tenths := (bytes * 10 + 524288) / 1048576
    toString (tenths / 10) ++ "." ++ toString (tenths % 10) ++ " MB"

/-- `formatSummary` from `src/engine/formatter.ts`. -/
def formatSummary (result : IngestResult) : String :=
  joinNl
    ["---",
     "repo: " ++ result.repoName,
     "ref: " ++ result.ref,
     "files: " ++ toString result.fileCount,
     "size: " ++ toString result.totalSize,
     "truncated: " ++ (if result.truncated then "true" else "false"),
     "---",
     "",
     "# " ++ result.repoName,
     "",
     "**Ref:** `" ++ result.ref ++ "`  ",
     "**Files:** " ++ toString result.fileCount ++ "  ",
     "**Total size:** " ++ formatBytes result.totalSize ++ "  ",
     ""]

/-- `TreeNode` from `src/engine/formatter.ts`; the insertion-ordered `Map` of
children is modelled by an insertion-ordered list. -/
inductive TreeNode where
  | node (name : String) (isDir : Bool) (children : List TreeNode)

def TreeNode.name : TreeNode → String
  | .node n _ _ => n

def TreeNode.isDir : TreeNode → Bool
  | .node _ d _ => d

def TreeNode.children : TreeNode → List TreeNode
  | .node _ _ cs => cs

/-- Insert one slash-separated path (as segment list) into a node, creating
missing children at the end of the sibling list, exactly as the source's
`buildTree` loop does. -/
def insertParts (n : TreeNode) : List String → TreeNode
  | [] => n
  | p :: rest =>
    let isDir := !rest.isEmpty
    match n.children.findIdx? (fun c => c.name == p) with
    | some i =>
      match n.children.get? i with
      | some child =>
        .node n.name n.isDir (n.children.set i (insertParts child rest))
      | none => n
    | none =>
      .node n.name n.isDir
        (n.children ++ [insertParts (.node p isDir []) rest])

/-- `buildTree` from `src/engine/formatter.ts`. -/
def buildTree (files : List FileEntry) : TreeNode :=
  files.foldl (fun root f => insertParts root (splitOnCharS '/' f.path))
    (.node "" true [])

/-- `renderTree`'s recursion over siblings and children, fuelled so that the
recursion is structural (and hence kernel-evaluable).  One unit of fuel is
spent per node visited, on siblings and children alike; `formatTree` supplies
fuel exceeding the total node count, so the fuel never runs out.  Rendering a
node emits `prefix ++ connector ++ name(+"/") ++ "\n"` and recurses into the
children with the extended indent, last children using the corner
connector. -/
def renderChildrenF : Nat → List TreeNode → String → String
  | 0, _, _ => ""
  | _ + 1, [], _ => ""
  | fuel + 1, c :: rest, pfx =>
    let isLast := rest.isEmpty
    let connector := if isLast then "└── " else "├── "
    let displayName := if c.isDir then c.name ++ "/" else c.name
    let childPfx := pfx ++ (if isLast then "    " else "│   ")
    pfx ++ connector ++ displayName ++ "\n" ++
      renderChildrenF fuel c.children childPfx ++ renderChildrenF fuel rest pfx

/-- Fuel bound for `renderChildrenF`: the tree built from `files` has at most
one node per path segment, and each path of `n` characters has at most
`n + 1` segments. -/
def renderFuel (files : List FileEntry) : Nat :=
  files.foldl (fun a f => a + f.path.toList.length + 1) 0 + 1

/-- `formatTree` from `src/engine/formatter.ts` (the `isRoot` call renders the
children of the root with an empty indent). -/
def formatTree (files : List FileEntry) (rootName : Option String := none) :
    String :=
  let tree := buildTree files
  let header := match rootName with
                | some r => r ++ "/\n"
                | none => "./\n"
  let body := renderChildrenF (renderFuel files) tree.children ""
  "```\n" ++ header ++ body ++ "```\n"

/-- `formatFileList` from `src/engine/formatter.ts`.  It does not consult
`truncated` or `truncationMessage`. -/
def formatFileList (result : IngestResult) : String :=
  let summary := formatSummary result
  let tree := formatTree result.files
  let rows := joinNl (result.files.map (fun f =>
    "| " ++ f.path ++ " | " ++ toString f.size ++ " | " ++
      (match f.lines with
       | some n => toString n
       | none => "-") ++ " |"))
  let table := joinNl
    ["## File List", "", "| Path | Size (bytes) | Lines |",
     "|------|-------------|-------|", rows, ""]
  summary ++ "\n## Directory Structure\n\n" ++ tree ++ "\n" ++ table

/-- `formatFileBlock` from `src/engine/formatter.ts`. -/
def formatFileBlock (file : FileEntry) : String :=
  let lang := detectLanguage file.path
  let fence := "```" ++ lang
  joinNl ["### `" ++ file.path ++ "`", "", fence, file.content.getD "",
          "```", ""]

/-- `formatFull` from `src/engine/formatter.ts`.  The final `if` uses
JavaScript truthiness: an empty truncation message is not appended. -/
def formatFull (result : IngestResult) : String :=
  let summary := formatSummary result
  let tree := formatTree result.files
  let content := summary ++ "\n## Directory Structure\n\n" ++ tree ++
    "\n## File Contents\n\n"
  let content := result.files.foldl (fun acc f => acc ++ formatFileBlock f)
    content
  match result.truncationMessage with
  | some m => if result.truncated && m != "" then content ++ "\n" ++ m ++ "\n"
              else content
  | none => content

/-- `formatOutput` from `src/engine/formatter.ts`. -/
def formatOutput (result : IngestResult) (detail : DetailLevel) : String :=
  match detail with
  | .summary => formatSummary result
  | .struct => formatSummary result ++ "\n## Directory Structure\n\n" ++
      formatTree result.files
  | .fileList => formatFileList result
  | .full => formatFull result

/-! ## `src/engine/parser.ts` -/

/-- `ParsedRequest` from `src/types.ts`. -/
structure ParsedRequest where
  owner : String
  repo : String
  ref : Option String := none
  path : Option String := none
  detail : DetailLevel
  noCache : Bool
  deriving Repr, DecidableEq

/-- The already-parsed pieces of the incoming request URL that `parseRequest`
reads: `url.pathname` and `url.searchParams` (an ordered key/value list; a
bare `?flag` query token appears as the pair `("flag", "")`). -/
structure HttpUrl where
  pathname : String
  query : List (String × String)

/-- `searchParams.get(k)`: first value for the key, or null. -/
def searchGet (q : List (String × String)) (k : String) : Option String :=
  (q.find? (fun p => p.1 == k)).map Prod.snd

def VALID_DETAIL_LEVELS : List String := ["summary", "structure", "file-list", "full"]

def detailOfString (s : String) : DetailLevel :=
  if s = "summary" then .summary
  else if s = "structure" then .struct
  else if s = "file-list" then .fileList
  else .full

/-- `parseDetail` from `src/engine/parser.ts`: null or empty means the default
`"full"`; an unrecognized value is a `ParseError`. -/
def parseDetail (raw : Option String) : Except String DetailLevel :=
  match raw with
  | none => .ok .full
  | some r =>
    if r = "" then .ok .full
    else if VALID_DETAIL_LEVELS.contains r then .ok (detailOfString r)
    else .error ("Invalid detail level \"" ++ r ++
      "\". Must be one of: summary, structure, file-list, full.")

/-- `parseOwnerRepo` from `src/engine/parser.ts`. -/
def parseOwnerRepo (raw : String) : Except String (String × String) :=
  let parts := splitOnCharS '/' raw
  if parts.length < 2 then
    .error ("Could not parse repo \"" ++ raw ++ "\". Expected format: owner/repo")
  else
    let owner := strTrim (parts.getD 0 "")
    let repo := strTrim (parts.getD 1 "")
    if owner = "" then .error "Repository owner must not be empty."
    else if repo = "" then .error "Repository name must not be empty."
    else .ok (owner, repo)

/-- `parseRequest` from `src/engine/parser.ts`.  For the URL-appended form the
source re-parses `pathname.slice(1)` with `new URL(...)`; for a string of the
shape `https://github.com/<rest>` that inner pathname is `/<rest>`, which is
how the embedded-URL branch below recovers it. -/
def parseRequest (url : HttpUrl) : Except String ParsedRequest := do
  let noCache := searchGet url.query "no-cache" == some "true"
  let detail ← parseDetail (searchGet url.query "detail")
  if url.pathname = "/ingest" then
    match searchGet url.query "repo" with
    | none =>
      .error "Missing required \"repo\" parameter. Expected format: ?repo=owner/repo"
    | some repoParam =>
      if strTrim repoParam = "" then
        .error "Missing required \"repo\" parameter. Expected format: ?repo=owner/repo"
      else do
        let (owner, repo) ← parseOwnerRepo repoParam
        let ref := (searchGet url.query "ref").bind
          (fun s => if s = "" then none else some s)
        let path := (searchGet url.query "path").bind
          (fun s => if s = "" then none else some s)
        .ok { owner := owner, repo := repo, ref := ref, path := path,
              detail := detail, noCache := noCache }
  else if strHasPfx url.pathname "/https://github.com/" then
    let githubUrl := strDropN url.pathname 1
    -- `new URL(githubUrl).pathname`: everything after the host, slash included
    let ghPath := strDropN githubUrl ("https://github.com".length)
    let segments := splitOnCharS '/'
      (if strHasPfx ghPath "/" then strDropN ghPath 1 else ghPath)
    if segments.length < 2 || segments.getD 0 "" = "" || segments.getD 1 "" = "" then
      .error "Could not parse GitHub URL. Expected format: https://github.com/owner/repo"
    else
      let owner := segments.getD 0 ""
      let repo := segments.getD 1 ""
      let ref : Option String :=
        if segments.length ≥ 4 && segments.getD 2 "" == "tree"
        then some (segments.getD 3 "") else none
      let path : Option String :=
        if segments.length ≥ 4 && segments.getD 2 "" == "tree" &&
            decide (segments.length > 4)
        then some (String.intercalate "/" (segments.drop 4)) else none
      .ok { owner := owner, repo := repo, ref := ref, path := path,
            detail := detail, noCache := noCache }
  else
    .error "Request did not match any supported route. Use /ingest?repo=owner/repo or /https://github.com/owner/repo"

/-! ## Claim C6 — binary sniffing window -/

/-- C6: for every byte buffer, `isBinaryContent` returns true if and only if
some byte among the first `min(length, 8192)` bytes is zero; in particular a
buffer shorter than 8 KiB with no zero byte reports not binary, a zero byte at
or before offset 8191 reports binary, and a zero byte occurring only at offset
8192 or later reports not binary. -/
theorem isBinaryContent_iff_zero_in_window (buffer : List Nat) :
    isBinaryContent buffer = true ↔
      ∃ i, i < min buffer.length 8192 ∧ buffer.getD i 1 = 0 := by
  unfold isBinaryContent
  rw [List.any_eq_true]
  constructor
  · rintro ⟨x, hx, hx0⟩
    rw [List.mem_take_iff_getElem] at hx
    obtain ⟨i, hi, hval⟩ := hx
    have hlt : i < buffer.length := by omega
    refine ⟨i, by omega, ?_⟩
    rw [List.getD_eq_getElem buffer 1 hlt, hval]
    simpa using hx0
  · rintro ⟨i, hi, h0⟩
    have hlt : i < buffer.length := by omega
    rw [List.getD_eq_getElem buffer 1 hlt] at h0
    refine ⟨buffer[i], ?_, by simpa using h0⟩
    rw [List.mem_take_iff_getElem]
    exact ⟨i, by omega, rfl⟩

/-! ## Claim C4 — static excluded directory names -/

/-- C4 counterexample: `"node_modules"` is in the static excluded-directory
set and is the final segment of `"src/node_modules"`, yet `shouldIgnorePath`
returns `false` — a path whose final segment equals an excluded directory name
is not excluded when the path has more than one segment. -/
theorem shouldIgnorePath_final_segment_counterexample :
    "node_modules" ∈ IGNORED_DIRS ∧
    (splitOnCharS '/' "src/node_modules").getLastD "" = "node_modules" ∧
    shouldIgnorePath "src/node_modules" = false := by
  refine ⟨by decide, by decide, by decide⟩

/-- C4 (amended): for every path and every name in the static
excluded-directory set, if some non-final segment equals that name, or the
path consists of exactly that single segment, then `shouldIgnorePath` returns
true.  (The original claim also covered a final segment at depth > 1, which
the counterexample refutes.) -/
theorem shouldIgnorePath_of_dir_segment (p name : String)
    (hname : name ∈ IGNORED_DIRS)
    (hseg : name ∈ (splitOnCharS '/' p).dropLast ∨ splitOnCharS '/' p = [name]) :
    shouldIgnorePath p = true := by
  unfold shouldIgnorePath
  rcases hseg with hmem | hone
  · simp only [Bool.or_eq_true, List.any_eq_true]
    exact Or.inl (Or.inl (Or.inl (Or.inl
      ⟨name, hmem, List.elem_eq_true_of_mem hname⟩)))
  · rw [hone]
    simp
    exact Or.inl (Or.inl (Or.inl hname))

/-- C4 witness: instantiation of the amended theorem at a concrete path with
a non-final `node_modules` segment. -/
theorem shouldIgnorePath_of_dir_segment_witness :
    shouldIgnorePath "a/node_modules/b.ts" = true :=
  shouldIgnorePath_of_dir_segment "a/node_modules/b.ts" "node_modules"
    (by decide) (Or.inl (by decide))

/-! ## Claim C3 — bare detail-flag tokens in embedded-URL requests -/

/-- C3: the claim (and the repository's own `test/engine/parser.test.ts`)
requires a lone bare `?summary` flag on an embedded-URL request to set the
detail level to `summary`; the code never inspects bare query keys, so the
request parses with the default detail level `full` instead. -/
theorem parseRequest_ignores_bare_detail_flag :
    parseRequest { pathname := "/https://github.com/owner/repo",
                   query := [("summary", "")] } =
      .ok { owner := "owner", repo := "repo", ref := none, path := none,
            detail := .full, noCache := false } ∧
    DetailLevel.full ≠ DetailLevel.summary := by
  exact ⟨rfl, by decide⟩

/-! ## Claim C9 — result counters are consistent with the file list -/

set_option maxHeartbeats 400000 in
/-- Step invariant: the running byte total equals the sum of the sizes of the
collected files. -/
theorem procStep_totalSize_inv (pfx : String)
    (gi : Option (String → Bool)) (subpath : String) (detail : DetailLevel)
    (mob mfc : Nat) (decode : List Nat → String) (e : RawEntry)
    (st : LoopState)
    (h : st.totalSize = (st.files.map (fun f => f.size)).sum) :
    ((procStep pfx gi subpath detail mob mfc decode e st).state).totalSize =
      (((procStep pfx gi subpath detail mob mfc decode e st).state).files.map
        (fun f => f.size)).sum := by
  simp only [procStep]
  generalize (if strHasPfx e.path pfx = true then strDropN e.path pfx.toList.length else e.path) = fp0
  repeat' split
  all_goals simp [StepRes.state, h]

/-- Loop invariant: the running byte total equals the sum of the sizes of the
collected files. -/
theorem procLoop_totalSize_inv (pfx : String)
    (gi : Option (String → Bool)) (subpath : String) (detail : DetailLevel)
    (mob mfc : Nat) (decode : List Nat → String) (entries : List RawEntry)
    (st : LoopState)
    (h : st.totalSize = (st.files.map (fun f => f.size)).sum) :
    (procLoop pfx gi subpath detail mob mfc decode entries st).totalSize =
      ((procLoop pfx gi subpath detail mob mfc decode entries st).files.map
        (fun f => f.size)).sum := by
  induction entries generalizing st with
  | nil => simpa [procLoop] using h
  | cons e rest ih =>
    have hstep := procStep_totalSize_inv pfx gi subpath detail mob mfc decode e st h
    simp only [procLoop]
    cases hres : procStep pfx gi subpath detail mob mfc decode e st with
    | cont st' => rw [hres] at hstep; exact ih st' hstep
    | halt st' => rw [hres] at hstep; exact hstep

/-- C9: every `IngestResult` produced by `decompressAndProcess` has
`fileCount` equal to the length of its file list and `totalSize` equal to the
sum of the byte sizes of the files in that list, for all inputs, truncated
results included. -/
theorem decompressAndProcess_counters (entries : List RawEntry)
    (options : DecompressOptions) (decode : List Nat → String) :
    (decompressAndProcess entries options decode).fileCount =
      (decompressAndProcess entries options decode).files.length ∧
    (decompressAndProcess entries options decode).totalSize =
      ((decompressAndProcess entries options decode).files.map
        (fun f => f.size)).sum := by
  refine ⟨rfl, ?_⟩
  exact procLoop_totalSize_inv _ _ _ _ _ _ _ entries _ (by simp)

/-! ## Claim C7 — last matching ignore rule wins -/

/-- The verdict fold of `parseGitignore`, characterized: it returns the
polarity of the last rule whose pattern matches, or the initial value if no
rule matches. -/
theorem ignoreFold_lastMatch (rules : List IgnoreRule) (path : String)
    (init : Bool) :
    rules.foldl (fun ignored r => if regexTest r.pat path then !r.negate
                                  else ignored) init =
      (match (rules.filter (fun r => regexTest r.pat path)).getLast? with
       | some r => !r.negate
       | none => init) := by
  induction rules using List.reverseRecOn with
  | nil => rfl
  | append_singleton l r ih =>
    rw [List.foldl_append, List.filter_append]
    by_cases hm : regexTest r.pat path = true
    · simp [hm, List.getLast?_concat]
    · simp only [List.foldl_cons, List.foldl_nil]
      rw [if_neg (by simpa using hm), ih]
      simp [List.filter_cons, hm]

/-- C7: for every ignore-rule file and every candidate path, the compiled
matcher's verdict is the polarity of the last rule (in file order) whose
pattern matches the path — so a later matching negation rule re-includes a
path an earlier matching rule excluded, order rather than specificity decides,
and a path matched by no rule is not ignored. -/
theorem parseGitignore_last_match_wins (content path : String) :
    parseGitignore content path =
      (match ((parseGitignoreRules content).filter
          (fun r => regexTest r.pat path)).getLast? with
       | some r => !r.negate
       | none => false) :=
  ignoreFold_lastMatch (parseGitignoreRules content) path false

/-! ## Claim C10 — plain patterns are anchored at a trailing segment boundary -/

/-- Specification of `slashSplits`: its members are exactly the decompositions
of the input around one `/`. -/
theorem mem_slashSplits : ∀ (s a b : List Char),
    (a, b) ∈ slashSplits s ↔ s = a ++ '/' :: b := by
  intro s
  induction s with
  | nil =>
    intro a b
    constructor
    · intro h; simp [slashSplits] at h
    · intro h; exact absurd h (by simp)
  | cons c t ih =>
    intro a b
    simp only [slashSplits, List.mem_append, List.mem_map]
    constructor
    · rintro (h | ⟨q, hq, hqe⟩)
      · by_cases hc : c = '/'
        · rw [if_pos hc] at h
          simp only [List.mem_singleton, Prod.mk.injEq] at h
          obtain ⟨rfl, rfl⟩ := h
          subst hc
          rfl
        · rw [if_neg hc] at h
          simp at h
      · obtain ⟨q1, q2⟩ := q
        rw [ih q1 q2] at hq
        cases hqe
        subst hq
        rfl
    · intro h
      cases a with
      | nil =>
        injection h with h1 h2
        subst h1; subst h2
        left
        simp
      | cons c' a' =>
        injection h with h1 h2
        subst h1
        right
        exact ⟨(a', b), (ih a' b).mpr h2, rfl⟩

/-- Any-over-`segStarts` characterization: some allowed start position (the
whole path, or a suffix following a `/`) satisfies the predicate. -/
theorem any_segStarts (cs : List Char) (f : List Char → Bool) :
    (segStarts cs).any f = true ↔
      ∃ pre suf, cs = pre ++ suf ∧
        (pre = [] ∨ ∃ pre', pre = pre' ++ ['/']) ∧ f suf = true := by
  unfold segStarts
  simp only [List.any_cons, Bool.or_eq_true, List.any_eq_true]
  constructor
  · rintro (h | ⟨x, hx, hf⟩)
    · exact ⟨[], cs, rfl, Or.inl rfl, h⟩
    · obtain ⟨q, hq, rfl⟩ := List.mem_map.mp hx
      obtain ⟨q1, q2⟩ := q
      rw [mem_slashSplits] at hq
      exact ⟨q1 ++ ['/'], q2, by simpa using hq, Or.inr ⟨q1, rfl⟩, hf⟩
  · rintro ⟨pre, suf, heq, hpre, hf⟩
    rcases hpre with rfl | ⟨pre', rfl⟩
    · simp only [List.nil_append] at heq
      subst heq
      exact Or.inl hf
    · refine Or.inr ⟨suf, List.mem_map.mpr ⟨(pre', suf), ?_, rfl⟩, hf⟩
      rw [mem_slashSplits]
      simpa using heq

/-- C10: a pattern with no trailing and no leading separator compiles to the
`(^|/)P$` shape, which matches a path exactly when the tokenized pattern
matches a suffix of the path that extends to the end and starts at a segment
boundary; in particular the plain pattern `build` does not match
`build/output.js`. -/
theorem plain_pattern_anchored_at_final_segment (p path : String)
    (hdir : strHasSfx p "/" = false) (hroot : strHasPfx p "/" = false) :
    (regexTest (gitignorePatternToRegex p) path = true ↔
      ∃ pre suf, path.toList = pre ++ suf ∧
        (pre = [] ∨ ∃ pre', pre = pre' ++ ['/']) ∧
        tokMatch (tokenize p.toList) suf = true) ∧
    parseGitignore "build" "build/output.js" = false := by
  constructor
  · have hgp : gitignorePatternToRegex p =
        { rooted := false, isDir := false, toks := tokenize p.toList } := by
      unfold gitignorePatternToRegex
      simp [hdir, hroot]
    rw [hgp]
    unfold regexTest
    simp only [Bool.false_eq_true, if_false]
    exact any_segStarts path.toList (tokMatch (tokenize p.toList))
  · rfl

/-- C10 witness: the amended characterization applied at the plain pattern
`build` and the path `x/build`, whose suffix `build` follows a separator. -/
theorem plain_pattern_anchored_witness :
    regexTest (gitignorePatternToRegex "build") "x/build" = true :=
  (plain_pattern_anchored_at_final_segment "build" "x/build" rfl rfl).1.mpr
    ⟨['x', '/'], ['b', 'u', 'i', 'l', 'd'], rfl, Or.inr ⟨['x'], rfl⟩, rfl⟩

/-! ## Substring search (the spec's "re-extracting each fenced body by path")

`splitFirst pat s` splits `s` at the first occurrence of `pat`, returning the
part before and the part after, or `none` when `pat` does not occur. -/

def splitFirst (pat : List Char) : List Char → Option (List Char × List Char)
  | [] => if pat.isPrefixOf ([] : List Char)
          then some ([], ([] : List Char).drop pat.length) else none
  | c :: t =>
    if pat.isPrefixOf (c :: t) then some ([], (c :: t).drop pat.length)
    else (splitFirst pat t).map (fun q => (c :: q.1, q.2))

/-- Whether `pat` occurs in `s` as a contiguous substring. -/
def containsL (pat s : List Char) : Bool :=
  (splitFirst pat s).isSome

/-- A prefix of an append that fits inside the left part is a prefix of the
left part. -/
theorem prefix_of_append_of_le (l D X : List Char) (h : l <+: D ++ X)
    (hle : l.length ≤ D.length) : l <+: D := by
  rw [List.prefix_iff_eq_take] at h
  rw [List.take_append_of_le_length hle] at h
  rw [List.prefix_iff_eq_take]
  exact h

/-- If `pat` does not occur in `A` (and cannot straddle the boundary, which is
what the occurrence check over `A ++ pat.dropLast` rules out), then the first
occurrence of `pat` in `A ++ pat ++ B` is exactly at the boundary. -/
theorem splitFirst_append (pat A B : List Char) (hpat : pat ≠ [])
    (h : containsL pat (A ++ pat.dropLast) = false) :
    splitFirst pat (A ++ (pat ++ B)) = some (A, B) := by
  induction A with
  | nil =>
    simp only [List.nil_append]
    cases pat with
    | nil => exact absurd rfl hpat
    | cons p ps =>
      rw [List.cons_append]
      simp only [splitFirst]
      rw [if_pos]
      · rw [← List.cons_append, List.drop_left]
      · exact List.isPrefixOf_iff_prefix.mpr
          (by rw [← List.cons_append]; exact List.prefix_append _ _)
  | cons c A' ih =>
    rw [List.cons_append] at h
    unfold containsL at h
    simp only [splitFirst] at h
    by_cases hpref : pat.isPrefixOf (c :: (A' ++ pat.dropLast)) = true
    · rw [if_pos hpref] at h
      simp at h
    · rw [if_neg hpref] at h
      simp only [Option.isSome_map'] at h
      have hrec : containsL pat (A' ++ pat.dropLast) = false := h
      rw [List.cons_append]
      simp only [splitFirst]
      rw [if_neg, ih hrec]
      · rfl
      · intro habs
        apply hpref
        have hlen : 1 ≤ pat.length := by
          cases pat with
          | nil => exact absurd rfl hpat
          | cons _ _ => simp
        have hsplitpat : pat = pat.dropLast ++ [pat.getLast hpat] :=
          (List.dropLast_concat_getLast hpat).symm
        have hshape : c :: (A' ++ (pat ++ B)) =
            (c :: (A' ++ pat.dropLast)) ++ ([pat.getLast hpat] ++ B) := by
          conv_lhs => rw [hsplitpat]
          simp [List.append_assoc]
        have hpre : pat <+: (c :: (A' ++ pat.dropLast)) ++
            ([pat.getLast hpat] ++ B) := by
          rw [← hshape]
          exact List.isPrefixOf_iff_prefix.mp habs
        apply List.isPrefixOf_iff_prefix.mpr
        apply prefix_of_append_of_le _ _ _ hpre
        simp only [List.length_cons, List.length_append, List.length_dropLast]
        omega

/-! ## Renderer decomposition lemmas -/

/-- The concatenation of the per-file sections of `formatFull`, in file
order. -/
def concatBlocks : List FileEntry → String
  | [] => ""
  | f :: rest => formatFileBlock f ++ concatBlocks rest

theorem foldl_concatBlocks (files : List FileEntry) (base : String) :
    files.foldl (fun acc f => acc ++ formatFileBlock f) base =
      base ++ concatBlocks files := by
  induction files generalizing base with
  | nil => simp [concatBlocks]
  | cons f rest ih =>
    rw [List.foldl_cons, ih, concatBlocks, String.append_assoc]

theorem concatBlocks_append (a b : List FileEntry) :
    concatBlocks (a ++ b) = concatBlocks a ++ concatBlocks b := by
  induction a with
  | nil => simp [concatBlocks]
  | cons f rest ih => rw [List.cons_append, concatBlocks, concatBlocks, ih,
      String.append_assoc]

/-- Everything `formatFull` emits before the first per-file section. -/
def fullHeader (r : IngestResult) : String :=
  formatSummary r ++ "\n## Directory Structure\n\n" ++ formatTree r.files ++
    "\n## File Contents\n\n"

/-- The final chunk of `formatFull`: the truncation note when present,
truthy, and the result is truncated; empty otherwise. -/
def fullTail (r : IngestResult) : String :=
  match r.truncationMessage with
  | some m => if r.truncated && m != "" then "\n" ++ m ++ "\n" else ""
  | none => ""

theorem formatFull_decomp (r : IngestResult) :
    formatFull r = fullHeader r ++ concatBlocks r.files ++ fullTail r := by
  simp only [formatFull, fullHeader, fullTail]
  rw [foldl_concatBlocks]
  cases hm : r.truncationMessage with
  | none => simp
  | some m =>
    by_cases hc : (r.truncated && m != "") = true
    · simp [hc, String.append_assoc]
    · simp [hc]

/-! ## Claim C2 — placement of the truncation note -/

/-- An ASCII model of `TextDecoder.decode`, used to build concrete example
results. -/
def asciiDecode (bs : List Nat) : String :=
  String.mk (bs.map (fun b => Char.ofNat b))

/-- Build an archive entry from a path and ASCII content. -/
def mkEntry (p content : String) : RawEntry :=
  { path := p, data := content.toList.map (fun c => c.toNat) }

/-- A concrete truncated ingest: four admissible files against a file-count
ceiling of 3. -/
def exC2 : IngestResult :=
  decompressAndProcess
    [mkEntry "r/a.ts" "aaaa", mkEntry "r/b.ts" "bbbb",
     mkEntry "r/c.ts" "cccc", mkEntry "r/d.ts" "dddd"]
    { detail := .fileList, maxOutputBytes := 10485760, maxFileCount := 3 }
    asciiDecode

/-- C2 counterexample: a truncated result carrying a truncation note, rendered
at the file-list level, does not end with the note — the note does not occur
in the output at all, because `formatFileList` never reads it. -/
theorem formatFileList_truncation_note_absent :
    exC2.truncated = true ∧
    exC2.truncationMessage = some (truncMsg 3 4) ∧
    containsL (truncMsg 3 4).toList (formatFileList exC2).toList = false :=
  ⟨rfl, rfl, rfl⟩

/-- C2 (amended): for every result with `truncated = true` and a non-empty
truncation note, the full-bodies renderer appends the note as the final chunk,
while the file-list renderer ignores the note entirely (its output is the
same as if the note were absent). -/
theorem truncation_note_final_chunk_full_only (r : IngestResult) (m : String)
    (ht : r.truncated = true) (hm : r.truncationMessage = some m)
    (hne : m ≠ "") :
    (∃ pre, formatFull r = pre ++ "\n" ++ m ++ "\n") ∧
    formatFileList r = formatFileList { r with truncationMessage := none } := by
  refine ⟨⟨fullHeader r ++ concatBlocks r.files, ?_⟩, rfl⟩
  rw [formatFull_decomp]
  unfold fullTail
  rw [hm, ht]
  simp [hne, String.append_assoc]

/-- C2 witness: the amended statement at the concrete truncated result. -/
theorem truncation_note_final_chunk_full_only_witness :
    (∃ pre, formatFull exC2 = pre ++ "\n" ++ truncMsg 3 4 ++ "\n") ∧
    formatFileList exC2 =
      formatFileList { exC2 with truncationMessage := none } :=
  truncation_note_final_chunk_full_only exC2 (truncMsg 3 4) rfl rfl
    (by decide)

/-! ## Claim C8 — round-tripping fenced bodies out of the full rendering -/

/-- The exact text `formatFull` places between the previous chunk and a
file's body: the heading with the backtick-quoted path, a blank line, and the
opening fence tagged with the detected language. -/
def markerOf (path : String) : String :=
  "### `" ++ path ++ "`" ++ "\n" ++ "\n" ++ "```" ++ detectLanguage path ++
    "\n"

/-- The text that closes a fenced body. -/
def fenceEnd : String := "\n" ++ "```" ++ "\n"

/-- Modelled from the spec: "re-extracting each fenced body by its path
label" — find the block marker for `path`, then return everything up to the
closing fence. -/
def extractBody (out path : String) : Option String :=
  match splitFirst (markerOf path).toList out.toList with
  | none => none
  | some q =>
    match splitFirst fenceEnd.toList q.2 with
    | none => none
    | some q2 => some (String.mk q2.1)

theorem formatFileBlock_decomp (f : FileEntry) (body : String)
    (h : f.content = some body) :
    (formatFileBlock f).toList =
      (markerOf f.path).toList ++ body.toList ++ fenceEnd.toList := by
  have hnil : ("" : String).toList = [] := rfl
  have happ : ∀ a b : String, (a ++ b).toList = a.toList ++ b.toList :=
    fun _ _ => rfl
  simp only [formatFileBlock, joinNl, markerOf, fenceEnd, h, Option.getD_some,
    happ, hnil, List.append_assoc, List.append_nil, List.nil_append]

theorem markerOf_toList_ne_nil (path : String) :
    (markerOf path).toList ≠ [] := by
  intro h
  have : ('#' : Char) :: ("## `" ++ path ++ "`" ++ "\n" ++ "\n" ++ "```" ++
      detectLanguage path ++ "\n").toList = [] := h
  exact List.noConfusion this

/-- C8 (amended): rendering at the full-bodies level and re-extracting by path
recovers a file's body, provided the body does not contain the closing-fence
sequence and the block marker does not occur (even straddling) before the
file's own block.  (The unamended claim, for arbitrary textual bodies, fails:
see the counterexample.) -/
theorem formatFull_extract_roundtrip (r : IngestResult)
    (l1 l2 : List FileEntry) (f : FileEntry) (body : String)
    (hsplit : r.files = l1 ++ f :: l2)
    (hbody : f.content = some body)
    (hterm : containsL fenceEnd.toList
      (body.toList ++ fenceEnd.toList.dropLast) = false)
    (hmark : containsL (markerOf f.path).toList
      ((fullHeader r ++ concatBlocks l1).toList ++
        (markerOf f.path).toList.dropLast) = false) :
    extractBody (formatFull r) f.path = some body := by
  have happ : ∀ a b : String, (a ++ b).toList = a.toList ++ b.toList :=
    fun _ _ => rfl
  have hdecomp : (formatFull r).toList =
      (fullHeader r ++ concatBlocks l1).toList ++
        ((markerOf f.path).toList ++
          (body.toList ++ (fenceEnd.toList ++
            (concatBlocks l2 ++ fullTail r).toList))) := by
    rw [formatFull_decomp, hsplit, concatBlocks_append]
    simp only [happ, concatBlocks, formatFileBlock_decomp f body hbody,
      List.append_assoc]
  unfold extractBody
  rw [hdecomp, splitFirst_append _ _ _ (markerOf_toList_ne_nil f.path) hmark]
  dsimp only
  have hfe : fenceEnd.toList ≠ [] := by decide
  rw [splitFirst_append _ _ _ hfe hterm]
  rfl

/-- A concrete result whose single file has a textual body containing a
closing-fence line. -/
def exC8 : IngestResult :=
  { owner := "", repo := "", repoName := "demo/x", ref := "main",
    fileCount := 1, totalSize := 9, truncated := false,
    files := [{ path := "a.ts", size := 9, lines := some 3,
                content := some "x\n```\ny" }] }

/-- C8 counterexample: with a textual body that contains a fence line, the
re-extraction returns the part of the body before that line, not the original
body — the round-trip fails for this `IngestResult`. -/
theorem formatFull_extract_not_roundtrip :
    exC8.files.map (fun f => f.content) = [some "x\n```\ny"] ∧
    extractBody (formatFull exC8) "a.ts" = some "x" ∧
    ("x" : String) ≠ "x\n```\ny" :=
  ⟨rfl, rfl, by decide⟩

/-- A concrete result with an ordinary body. -/
def exC8W : IngestResult :=
  { owner := "", repo := "", repoName := "demo/x", ref := "main",
    fileCount := 1, totalSize := 5, truncated := false,
    files := [{ path := "a.ts", size := 5, lines := some 1,
                content := some "const" }] }

/-- C8 witness: the amended round-trip at a concrete result. -/
theorem formatFull_extract_roundtrip_witness :
    extractBody (formatFull exC8W) "a.ts" = some "const" :=
  formatFull_extract_roundtrip exC8W [] []
    { path := "a.ts", size := 5, lines := some 1, content := some "const" }
    "const" rfl rfl rfl rfl

/-! ## Claims C1 and C5 — truncation behaviour of `decompressAndProcess`

The theorems below quantify over archives of the shape GitHub produces: every
entry path is `pfx ++ "/" ++ name` for one synthetic top-level directory
`pfx` (no `/` in `pfx`), and the names are *admissible*: non-empty, not
directories, not statically ignored, not the ignore-rule file, not binary. -/

/-- An archive entry under the synthetic top-level directory. -/
def mkPfxEntry (pfx : String) (pr : String × List Nat) : RawEntry :=
  { path := (pfx ++ "/") ++ pr.1, data := pr.2 }

/-- The stripped name passes every per-entry filter. -/
def admissiblePair (pr : String × List Nat) : Bool :=
  !(pr.1 == "") && !strHasSfx pr.1 "/" && !shouldIgnorePath pr.1 &&
    !(pr.1 == ".gitignore") && !isBinaryContent pr.2

theorem splitOnCharL_ne_nil (c : Char) (l : List Char) :
    splitOnCharL c l ≠ [] := by
  cases l with
  | nil => simp [splitOnCharL]
  | cons x rest =>
    simp only [splitOnCharL]
    cases hb : splitOnCharL c rest with
    | nil => by_cases hx : x = c <;> simp [hx]
    | cons h t => by_cases hx : x = c <;> simp [hx]

/-- The first component of a JS split at the first separator. -/
theorem splitOnCharL_head_clean (c : Char) (a b : List Char)
    (ha : ∀ x ∈ a, x ≠ c) :
    (splitOnCharL c (a ++ c :: b)).head? = some a := by
  induction a with
  | nil =>
    simp only [List.nil_append, splitOnCharL]
    cases hb : splitOnCharL c b with
    | nil => exact absurd hb (splitOnCharL_ne_nil c b)
    | cons h t => simp
  | cons x a' ih =>
    have hx : x ≠ c := ha x (by simp)
    have ih' := ih (fun y hy => ha y (by simp [hy]))
    simp only [List.cons_append, splitOnCharL]
    cases hb : splitOnCharL c (a' ++ c :: b) with
    | nil => exact absurd hb (splitOnCharL_ne_nil c _)
    | cons h t =>
      rw [hb] at ih'
      have hha : h = a' := by simpa using ih'
      simp [hx, hha]

/-- `topPfx` recovers the synthetic top-level directory from the first
entry. -/
theorem topPfx_mk (pfx n : String) (d : List Nat) (rest : List RawEntry)
    (hpfx : ∀ x ∈ pfx.toList, x ≠ '/') :
    topPfx ({ path := (pfx ++ "/") ++ n, data := d } :: rest) = pfx ++ "/" := by
  have hsplit : ((pfx ++ "/") ++ n).toList = pfx.toList ++ '/' :: n.toList := by
    show (pfx.toList ++ ['/']) ++ n.toList = pfx.toList ++ '/' :: n.toList
    simp
  simp only [topPfx, hsplit]
  rw [splitOnCharL_head_clean '/' pfx.toList n.toList hpfx]
  have hlen : pfx.toList.length ≠ (pfx.toList ++ '/' :: n.toList).length := by
    simp
  dsimp only
  rw [if_neg hlen]
  rfl

theorem strAppend_left_cancel {s a b : String} (h : s ++ a = s ++ b) :
    a = b := by
  have hd : s.data ++ a.data = s.data ++ b.data := congrArg String.data h
  exact congrArg String.mk (List.append_cancel_left hd)

/-- No entry of an admissible archive is the root ignore-rule file. -/
theorem find_gitignore_none (pfx : String) (pairs : List (String × List Nat))
    (hadm : ∀ pr ∈ pairs, admissiblePair pr = true) :
    (pairs.map (mkPfxEntry pfx)).find?
      (fun e => e.path == (pfx ++ "/") ++ ".gitignore") = none := by
  rw [List.find?_eq_none]
  intro e he
  obtain ⟨pr, hpr, rfl⟩ := List.mem_map.mp he
  have h := hadm pr hpr
  simp only [admissiblePair, Bool.and_eq_true, Bool.not_eq_true',
    beq_eq_false_iff_ne] at h
  obtain ⟨⟨⟨⟨_, _⟩, _⟩, hgi⟩, _⟩ := h
  simp only [mkPfxEntry, beq_iff_eq]
  intro hc
  exact hgi (strAppend_left_cancel hc)

/-- The stripped path of a prefixed entry is the bare name. -/
theorem strip_mkPfxEntry (pfx n : String) :
    (if strHasPfx ((pfx ++ "/") ++ n) (pfx ++ "/") = true
     then strDropN ((pfx ++ "/") ++ n) (pfx ++ "/").toList.length
     else (pfx ++ "/") ++ n) = n := by
  have h1 : strHasPfx ((pfx ++ "/") ++ n) (pfx ++ "/") = true := by
    unfold strHasPfx
    exact List.isPrefixOf_iff_prefix.mpr
      (show (pfx ++ "/").toList <+: (pfx ++ "/").toList ++ n.toList from
        List.prefix_append _ _)
  rw [if_pos h1]
  unfold strDropN
  show String.mk (((pfx ++ "/").toList ++ n.toList).drop
    (pfx ++ "/").toList.length) = n
  rw [List.drop_left]
  rfl

/-- The `FileEntry` the loop records for an admitted entry. -/
@[reducible] def entryOf (detail : DetailLevel) (decode : List Nat → String)
    (pr : String × List Nat) : FileEntry :=
  { path := pr.1
    size := pr.2.length
    lines := if detail = .full || detail = .fileList
             then some (splitOnCharS '\n' (decode pr.2)).length
             else none
    content := if detail = .full then some (decode pr.2) else none }

/-- An admissible entry, with the ceilings not yet reached, is admitted:
the loop continues with the entry appended and the counters advanced. -/
theorem procStep_admissible_cont (pfx : String) (pr : String × List Nat)
    (detail : DetailLevel) (mob mfc : Nat) (decode : List Nat → String)
    (st : LoopState)
    (hadm : admissiblePair pr = true)
    (hcount : st.files.length < mfc)
    (hbyte : detail = .full → st.totalSize + pr.2.length ≤ mob) :
    procStep (pfx ++ "/") none "" detail mob mfc decode (mkPfxEntry pfx pr)
        st =
      .cont { files := st.files ++ [entryOf detail decode pr]
              totalSize := st.totalSize + pr.2.length
              truncated := st.truncated
              totalUnfiltered := st.totalUnfiltered + 1 } := by
  simp only [admissiblePair, Bool.and_eq_true, Bool.not_eq_true',
    beq_eq_false_iff_ne] at hadm
  obtain ⟨⟨⟨⟨hne, hsfx⟩, hig⟩, _⟩, hbin⟩ := hadm
  simp only [procStep, mkPfxEntry, strip_mkPfxEntry]
  rw [if_neg hne, if_neg (by rw [hsfx]; simp), if_neg (by rw [hig]; simp),
    if_neg (by simp)]
  simp only [if_true]
  dsimp only
  rw [if_neg (by rw [hbin]; simp), if_neg (by omega)]
  by_cases hdet : detail = DetailLevel.full
  · have hle := hbyte hdet
    rw [if_neg (by simp; omega)]
  · rw [if_neg (by simp [hdet])]

/-- An admissible entry arriving with the file-count ceiling already reached
stops the loop, marking the result truncated. -/
theorem procStep_admissible_halt_count (pfx : String)
    (pr : String × List Nat) (detail : DetailLevel) (mob mfc : Nat)
    (decode : List Nat → String) (st : LoopState)
    (hadm : admissiblePair pr = true)
    (hcount : mfc ≤ st.files.length) :
    procStep (pfx ++ "/") none "" detail mob mfc decode (mkPfxEntry pfx pr)
        st =
      .halt { files := st.files
              totalSize := st.totalSize
              truncated := true
              totalUnfiltered := st.totalUnfiltered + 1 } := by
  simp only [admissiblePair, Bool.and_eq_true, Bool.not_eq_true',
    beq_eq_false_iff_ne] at hadm
  obtain ⟨⟨⟨⟨hne, hsfx⟩, hig⟩, _⟩, hbin⟩ := hadm
  simp only [procStep, mkPfxEntry, strip_mkPfxEntry]
  rw [if_neg hne, if_neg (by rw [hsfx]; simp), if_neg (by rw [hig]; simp),
    if_neg (by simp)]
  simp only [if_true]
  dsimp only
  rw [if_neg (by rw [hbin]; simp), if_pos (by omega)]

/-- An admissible entry that would push the byte total past the ceiling at
the full-bodies level stops the loop, marking the result truncated. -/
theorem procStep_admissible_halt_bytes (pfx : String)
    (pr : String × List Nat) (mob mfc : Nat)
    (decode : List Nat → String) (st : LoopState)
    (hadm : admissiblePair pr = true)
    (hcount : st.files.length < mfc)
    (hbyte : mob < st.totalSize + pr.2.length) :
    procStep (pfx ++ "/") none "" DetailLevel.full mob mfc decode
        (mkPfxEntry pfx pr) st =
      .halt { files := st.files
              totalSize := st.totalSize
              truncated := true
              totalUnfiltered := st.totalUnfiltered + 1 } := by
  simp only [admissiblePair, Bool.and_eq_true, Bool.not_eq_true',
    beq_eq_false_iff_ne] at hadm
  obtain ⟨⟨⟨⟨hne, hsfx⟩, hig⟩, _⟩, hbin⟩ := hadm
  simp only [procStep, mkPfxEntry, strip_mkPfxEntry]
  rw [if_neg hne, if_neg (by rw [hsfx]; simp), if_neg (by rw [hig]; simp),
    if_neg (by simp)]
  simp only [if_true]
  dsimp only
  rw [if_neg (by rw [hbin]; simp), if_neg (by omega),
    if_pos (by simp; omega)]

/-- Unfolding of the loop at a continuing step. -/
theorem procLoop_cons_cont (pfx : String) (gi : Option (String → Bool))
    (subpath : String) (detail : DetailLevel) (mob mfc : Nat)
    (decode : List Nat → String) (e : RawEntry) (rest : List RawEntry)
    (st st' : LoopState)
    (h : procStep pfx gi subpath detail mob mfc decode e st = .cont st') :
    procLoop pfx gi subpath detail mob mfc decode (e :: rest) st =
      procLoop pfx gi subpath detail mob mfc decode rest st' := by
  simp only [procLoop, h]

/-- Unfolding of the loop at a halting step (`break`). -/
theorem procLoop_cons_halt (pfx : String) (gi : Option (String → Bool))
    (subpath : String) (detail : DetailLevel) (mob mfc : Nat)
    (decode : List Nat → String) (e : RawEntry) (rest : List RawEntry)
    (st st' : LoopState)
    (h : procStep pfx gi subpath detail mob mfc decode e st = .halt st') :
    procLoop pfx gi subpath detail mob mfc decode (e :: rest) st = st' := by
  simp only [procLoop, h]

/-- A concrete archive of ten admissible files under the synthetic top-level
directory `r/`, processed with a file-count ceiling of 3. -/
def exC1 : IngestResult :=
  decompressAndProcess
    [mkEntry "r/f0.ts" "x", mkEntry "r/f1.ts" "x", mkEntry "r/f2.ts" "x",
     mkEntry "r/f3.ts" "x", mkEntry "r/f4.ts" "x", mkEntry "r/f5.ts" "x",
     mkEntry "r/f6.ts" "x", mkEntry "r/f7.ts" "x", mkEntry "r/f8.ts" "x",
     mkEntry "r/f9.ts" "x"]
    { detail := .full, maxOutputBytes := 10485760, maxFileCount := 3 }
    asciiDecode

/-- C1 counterexample: ten admissible files with `maxFileCount = 3` do yield
3 files and `truncated = true`, but the note says "3 of 4" — the total is the
number of entries encountered before the loop stopped, not the 10 the claim
requires. -/
theorem decompress_note_not_three_of_ten :
    exC1.fileCount = 3 ∧ exC1.truncated = true ∧
    exC1.truncationMessage = some (truncMsg 3 4) ∧
    truncMsg 3 4 ≠ truncMsg 3 10 :=
  ⟨rfl, rfl, rfl, by decide⟩

/-- C1 (amended): for every archive of at least 10 admissible files (and no
other entries), `maxFileCount = 3` yields exactly 3 files, `truncated =
true`, and a note stating 3 included out of 4 — the count of entries
encountered up to and including the one that triggered the stop — rather than
out of the archive's total. -/
theorem decompress_fileCount_truncation (pfx : String)
    (pairs : List (String × List Nat)) (detail : DetailLevel) (mob : Nat)
    (decode : List Nat → String)
    (hpfx : ∀ x ∈ pfx.toList, x ≠ '/')
    (hadm : ∀ pr ∈ pairs, admissiblePair pr = true)
    (hlen : 10 ≤ pairs.length)
    (hbytes : ((pairs.take 3).map (fun pr => pr.2.length)).sum ≤ mob) :
    (decompressAndProcess (pairs.map (mkPfxEntry pfx))
      { detail := detail, maxOutputBytes := mob, maxFileCount := 3 }
      decode).files.length = 3 ∧
    (decompressAndProcess (pairs.map (mkPfxEntry pfx))
      { detail := detail, maxOutputBytes := mob, maxFileCount := 3 }
      decode).truncated = true ∧
    (decompressAndProcess (pairs.map (mkPfxEntry pfx))
      { detail := detail, maxOutputBytes := mob, maxFileCount := 3 }
      decode).truncationMessage = some (truncMsg 3 4) := by
  cases pairs with
  | nil => simp at hlen
  | cons p1 t1 =>
  cases t1 with
  | nil => simp at hlen
  | cons p2 t2 =>
  cases t2 with
  | nil => simp at hlen
  | cons p3 t3 =>
  cases t3 with
  | nil => simp at hlen
  | cons p4 t4 =>
  have hadm1 : admissiblePair p1 = true := hadm p1 (by simp)
  have hadm2 : admissiblePair p2 = true := hadm p2 (by simp)
  have hadm3 : admissiblePair p3 = true := hadm p3 (by simp)
  have hadm4 : admissiblePair p4 = true := hadm p4 (by simp)
  have hbytes' : p1.2.length + p2.2.length + p3.2.length ≤ mob := by
    simp [List.take, List.sum_cons] at hbytes
    omega
  have htop : topPfx ((p1 :: p2 :: p3 :: p4 :: t4).map (mkPfxEntry pfx)) =
      pfx ++ "/" := topPfx_mk pfx p1.1 p1.2 _ hpfx
  have hfind := find_gitignore_none pfx (p1 :: p2 :: p3 :: p4 :: t4) hadm
  have h1 := procStep_admissible_cont pfx p1 detail mob 3 decode
    ⟨[], 0, false, 0⟩ hadm1 (by decide) (fun _ => by dsimp only; omega)
  have h2 := procStep_admissible_cont pfx p2 detail mob 3 decode
    ⟨[] ++ [entryOf detail decode p1], 0 + p1.2.length, false, 0 + 1⟩ hadm2
    (by simp) (fun _ => by dsimp only; omega)
  have h3 := procStep_admissible_cont pfx p3 detail mob 3 decode
    ⟨([] ++ [entryOf detail decode p1]) ++ [entryOf detail decode p2],
      0 + p1.2.length + p2.2.length, false, 0 + 1 + 1⟩ hadm3
    (by simp) (fun _ => by dsimp only; omega)
  have h4 := procStep_admissible_halt_count pfx p4 detail mob 3 decode
    ⟨(([] ++ [entryOf detail decode p1]) ++ [entryOf detail decode p2]) ++
        [entryOf detail decode p3],
      0 + p1.2.length + p2.2.length + p3.2.length, false, 0 + 1 + 1 + 1⟩
    hadm4 (by simp)
  dsimp only at h1 h2 h3 h4
  simp only [decompressAndProcess]
  rw [htop, hfind]
  dsimp only
  simp only [List.map_cons, Option.getD_none]
  rw [procLoop_cons_cont _ _ _ _ _ _ _ _ _ _ _ h1,
    procLoop_cons_cont _ _ _ _ _ _ _ _ _ _ _ h2,
    procLoop_cons_cont _ _ _ _ _ _ _ _ _ _ _ h3,
    procLoop_cons_halt _ _ _ _ _ _ _ _ _ _ _ h4]
  refine ⟨by simp, rfl, ?_⟩
  simp

/-- Ten single-byte admissible files used to instantiate the C1 theorem. -/
def wPairs : List (String × List Nat) :=
  [("f0.ts", [120]), ("f1.ts", [120]), ("f2.ts", [120]), ("f3.ts", [120]),
   ("f4.ts", [120]), ("f5.ts", [120]), ("f6.ts", [120]), ("f7.ts", [120]),
   ("f8.ts", [120]), ("f9.ts", [120])]

/-- C1 witness: the amended theorem at a concrete ten-file archive. -/
theorem decompress_fileCount_truncation_witness :
    (decompressAndProcess (wPairs.map (mkPfxEntry "r"))
      { detail := DetailLevel.struct, maxOutputBytes := 10485760,
        maxFileCount := 3 } asciiDecode).files.length = 3 ∧
    (decompressAndProcess (wPairs.map (mkPfxEntry "r"))
      { detail := DetailLevel.struct, maxOutputBytes := 10485760,
        maxFileCount := 3 } asciiDecode).truncated = true ∧
    (decompressAndProcess (wPairs.map (mkPfxEntry "r"))
      { detail := DetailLevel.struct, maxOutputBytes := 10485760,
        maxFileCount := 3 } asciiDecode).truncationMessage =
      some (truncMsg 3 4) :=
  decompress_fileCount_truncation "r" wPairs DetailLevel.struct 10485760
    asciiDecode (by decide) (by decide) (by decide) (by decide)

/-- C5: for an archive of three admissible 1000-byte files and a byte ceiling
of 1500, the full-bodies level admits at most one file and truncates (for any
file-count ceiling), while every other detail level admits all three files
with no truncation whenever the file-count ceiling permits (`3 ≤ mfc`). -/
theorem decompress_byte_ceiling (pfx : String) (p1 p2 p3 : String × List Nat)
    (mfc : Nat) (decode : List Nat → String)
    (hpfx : ∀ x ∈ pfx.toList, x ≠ '/')
    (h1 : admissiblePair p1 = true) (h2 : admissiblePair p2 = true)
    (h3 : admissiblePair p3 = true)
    (hl1 : p1.2.length = 1000) (hl2 : p2.2.length = 1000)
    (hl3 : p3.2.length = 1000) :
    ((decompressAndProcess ([p1, p2, p3].map (mkPfxEntry pfx))
        { detail := .full, maxOutputBytes := 1500, maxFileCount := mfc }
        decode).files.length ≤ 1 ∧
     (decompressAndProcess ([p1, p2, p3].map (mkPfxEntry pfx))
        { detail := .full, maxOutputBytes := 1500, maxFileCount := mfc }
        decode).truncated = true) ∧
    (∀ detail : DetailLevel, detail ≠ .full → 3 ≤ mfc →
     (decompressAndProcess ([p1, p2, p3].map (mkPfxEntry pfx))
        { detail := detail, maxOutputBytes := 1500, maxFileCount := mfc }
        decode).files.length = 3 ∧
     (decompressAndProcess ([p1, p2, p3].map (mkPfxEntry pfx))
        { detail := detail, maxOutputBytes := 1500, maxFileCount := mfc }
        decode).truncated = false) := by
  have hadm : ∀ pr ∈ [p1, p2, p3], admissiblePair pr = true := by
    intro pr hpr
    simp only [List.mem_cons, List.not_mem_nil, or_false] at hpr
    rcases hpr with rfl | rfl | rfl <;> assumption
  have htop : topPfx ([p1, p2, p3].map (mkPfxEntry pfx)) = pfx ++ "/" :=
    topPfx_mk pfx p1.1 p1.2 _ hpfx
  have hfind := find_gitignore_none pfx [p1, p2, p3] hadm
  constructor
  · rcases mfc with _ | _ | n
    · have s1 := procStep_admissible_halt_count pfx p1 .full 1500 0 decode
        ⟨[], 0, false, 0⟩ h1 (by decide)
      dsimp only at s1
      simp only [decompressAndProcess]
      rw [htop, hfind]
      dsimp only
      simp only [List.map_cons, Option.getD_none]
      rw [procLoop_cons_halt _ _ _ _ _ _ _ _ _ _ _ s1]
      exact ⟨by simp, rfl⟩
    · have s1 := procStep_admissible_cont pfx p1 .full 1500 1 decode
        ⟨[], 0, false, 0⟩ h1 (by decide) (fun _ => by dsimp only; omega)
      have s2 := procStep_admissible_halt_count pfx p2 .full 1500 1 decode
        ⟨[] ++ [entryOf .full decode p1], 0 + p1.2.length, false, 0 + 1⟩ h2
        (by simp)
      dsimp only at s1 s2
      simp only [decompressAndProcess]
      rw [htop, hfind]
      dsimp only
      simp only [List.map_cons, Option.getD_none]
      rw [procLoop_cons_cont _ _ _ _ _ _ _ _ _ _ _ s1,
        procLoop_cons_halt _ _ _ _ _ _ _ _ _ _ _ s2]
      exact ⟨by simp, rfl⟩
    · have s1 := procStep_admissible_cont pfx p1 .full 1500 (n + 2) decode
        ⟨[], 0, false, 0⟩ h1 (by simp) (fun _ => by dsimp only; omega)
      have s2 := procStep_admissible_halt_bytes pfx p2 1500 (n + 2) decode
        ⟨[] ++ [entryOf .full decode p1], 0 + p1.2.length, false, 0 + 1⟩ h2
        (by simp) (by dsimp only; omega)
      dsimp only at s1 s2
      simp only [decompressAndProcess]
      rw [htop, hfind]
      dsimp only
      simp only [List.map_cons, Option.getD_none]
      rw [procLoop_cons_cont _ _ _ _ _ _ _ _ _ _ _ s1,
        procLoop_cons_halt _ _ _ _ _ _ _ _ _ _ _ s2]
      exact ⟨by simp, rfl⟩
  · intro detail hdet hmfc
    have s1 := procStep_admissible_cont pfx p1 detail 1500 mfc decode
      ⟨[], 0, false, 0⟩ h1 (by show 0 < mfc; omega)
      (fun hd => absurd hd hdet)
    have s2 := procStep_admissible_cont pfx p2 detail 1500 mfc decode
      ⟨[] ++ [entryOf detail decode p1], 0 + p1.2.length, false, 0 + 1⟩ h2
      (by show 1 < mfc; omega) (fun hd => absurd hd hdet)
    have s3 := procStep_admissible_cont pfx p3 detail 1500 mfc decode
      ⟨([] ++ [entryOf detail decode p1]) ++ [entryOf detail decode p2],
        0 + p1.2.length + p2.2.length, false, 0 + 1 + 1⟩ h3
      (by show 2 < mfc; omega) (fun hd => absurd hd hdet)
    dsimp only at s1 s2 s3
    simp only [decompressAndProcess]
    rw [htop, hfind]
    dsimp only
    simp only [List.map_cons, Option.getD_none]
    rw [procLoop_cons_cont _ _ _ _ _ _ _ _ _ _ _ s1,
      procLoop_cons_cont _ _ _ _ _ _ _ _ _ _ _ s2,
      procLoop_cons_cont _ _ _ _ _ _ _ _ _ _ _ s3]
    exact ⟨by simp [procLoop], by simp [procLoop]⟩

/-- Concrete 1000-byte files for the C5 witness. -/
def wkPair1 : String × List Nat := ("a.ts", List.replicate 1000 97)
def wkPair2 : String × List Nat := ("b.ts", List.replicate 1000 98)
def wkPair3 : String × List Nat := ("c.ts", List.replicate 1000 99)

/-- C5 witness: the theorem at three concrete 1000-byte files. -/
theorem decompress_byte_ceiling_witness :
    ((decompressAndProcess ([wkPair1, wkPair2, wkPair3].map (mkPfxEntry "r"))
        { detail := .full, maxOutputBytes := 1500, maxFileCount := 5000 }
        asciiDecode).files.length ≤ 1 ∧
     (decompressAndProcess ([wkPair1, wkPair2, wkPair3].map (mkPfxEntry "r"))
        { detail := .full, maxOutputBytes := 1500, maxFileCount := 5000 }
        asciiDecode).truncated = true) ∧
    (∀ detail : DetailLevel, detail ≠ .full → 3 ≤ 5000 →
     (decompressAndProcess ([wkPair1, wkPair2, wkPair3].map (mkPfxEntry "r"))
        { detail := detail, maxOutputBytes := 1500, maxFileCount := 5000 }
        asciiDecode).files.length = 3 ∧
     (decompressAndProcess ([wkPair1, wkPair2, wkPair3].map (mkPfxEntry "r"))
        { detail := detail, maxOutputBytes := 1500, maxFileCount := 5000 }
        asciiDecode).truncated = false) :=
  decompress_byte_ceiling "r" wkPair1 wkPair2 wkPair3 5000 asciiDecode
    (by decide) (by decide) (by decide) (by decide) (by decide) (by decide)
    (by decide)

end GitPrism
